import Mathlib

/-
Shallow embedding of the binning engine of `src/skoot/preprocessing/binning.py`.

Numeric values are modelled as rationals (ℚ).  The infinities that appear in
the learned bounds (`-np.inf` as the first lower bound, `np.inf` as the last
upper bound) are modelled with `WithBot ℚ` (lower bounds) and `WithTop ℚ`
(upper bounds).  Fallible Python code (raised exceptions) is modelled with
`Except Err`.
-/

/-- Error taxonomy of the engine.  The source raises plain `ValueError` /
`TypeError` with messages; the collaborators raise sklearn's `NotFittedError`,
a missing-column validation error and pandas `KeyError`. -/
inductive Err where
  | valueError (msg : String)
  | typeError (msg : String)
  | notFittedError
  | missingColumnError (missing : List String)
  | keyError (col : String)
deriving DecidableEq, Repr

/-- Two-decimal rendering of a rational, modelling the `"%.2f"` format used in
the bin labels (the spec: two-decimal rounding).  The magnitude is scaled by
100 and rounded to the nearest integer, computed directly on the numerator
and denominator. -/
def fmt2 (q : ℚ) : String :=
  let neg := q < 0
  let aq : ℚ := if neg then -q else q
  let m : ℕ := ((200 * aq.num + (aq.den : ℤ)) / (2 * (aq.den : ℤ))).toNat
  let ip := m / 100
  let fp := m % 100
  (if neg then "-" else "") ++ toString ip ++ "." ++
    (if fp < 10 then "0" ++ toString fp else toString fp)

/-- Modelled from the spec: `chunk(sequence, n)` from `skoot.utils.iterables`
is not under src; per the spec it is a near-equal partition of the sequence
into `n` contiguous groups, earlier groups larger when uneven (the example in
the source docstring: `chunk(range 10) 4 = [[0,1,2],[3,4,5],[6,7],[8,9]]`). -/
def chunk : List ℚ → Nat → List (List ℚ)
  | _, 0 => []
  | xs, n + 1 =>
    xs.take ((xs.length + n) / (n + 1)) ::
      chunk (xs.drop ((xs.length + n) / (n + 1))) n

/-- Insertion of a value into a sorted list, used to model sorting. -/
def insertSorted (a : ℚ) : List ℚ → List ℚ
  | [] => [a]
  | b :: l => if a ≤ b then a :: b :: l else b :: insertSorted a l

/-- Insertion sort on rationals. -/
def sortQ : List ℚ → List ℚ
  | [] => []
  | a :: l => insertSorted a (sortQ l)

/-- Sorted distinct values of a list, modelling `np.unique` (which returns the
sorted unique values of its input). -/
def uniqueSorted (x : List ℚ) : List ℚ :=
  sortQ x.dedup

/-- Embedding of the `_Bins` object: the attributes set by `_Bins.__init__`. -/
structure Bins where
  n_bins : ℕ
  upper_bounds : List (WithTop ℚ)
  lower_bounds : List (WithBot ℚ)
  reprs : List String
deriving DecidableEq, Repr

/-- Embedding of `_Bins.__init__` (binning.py lines 67-103).  `chunks` is the
list of bin value-groups; the loop over `zip(chunks[:-1], chunks[1:])` is
rendered as maps over the enumerated zipped pairs, followed by the trailing
appends for the last chunk.  `headD`/`getLastD` defaults stand for the
indexing `chunk[0]` / `chunks[-1]`, which in the source presupposes non-empty
chunk lists. -/
def Bins.ofChunks (chunks : List (List ℚ)) : Bins :=
  let pairs := chunks.dropLast.zip chunks.tail
  let upper_bounds : List (WithTop ℚ) :=
    pairs.map (fun p => ((p.2.headD 0 : ℚ) : WithTop ℚ)) ++ [⊤]
  let lower_bounds : List (WithBot ℚ) :=
    pairs.enum.map (fun ip =>
      if ip.1 = 0 then (⊥ : WithBot ℚ)
      else ((ip.2.1.headD 0 : ℚ) : WithBot ℚ)) ++
      [(((chunks.getLastD []).headD 0 : ℚ) : WithBot ℚ)]
  let reprs : List String :=
    pairs.enum.map (fun ip =>
      if ip.1 = 0 then "(-Inf, " ++ fmt2 (ip.2.2.headD 0) ++ "]"
      else "(" ++ fmt2 (ip.2.1.headD 0) ++ ", " ++ fmt2 (ip.2.2.headD 0) ++ "]") ++
      ["(" ++ fmt2 ((chunks.getLastD []).headD 0) ++ ", Inf]"]
  ⟨chunks.length, upper_bounds, lower_bounds, reprs⟩

/-- Scalar core of `_Bins.assign` (binning.py lines 105-135), as_str=False
path, specialized to one element: start at `n_bins - 1` and for each lower
boundary (iterated back-to-front, `self.lower_bounds[::-1]`) decrement when
the value is below the boundary (`bins[~(v >= boundary)] -= 1`).  Python ints
do not wrap, hence the result lives in ℤ. -/
def Bins.assignOne (b : Bins) (x : ℚ) : ℤ :=
  b.lower_bounds.reverse.foldl
    (fun bi boundary => if boundary ≤ (x : WithBot ℚ) then bi else bi - 1)
    ((b.n_bins : ℤ) - 1)

/-- Vector form of `_Bins.assign` (as_str=False): the bins vector starts as
`np.ones(len v) * (n_bins - 1)` and each pass over the reversed lower bounds
decrements exactly the positions whose value is below the boundary (the
`anti_mask.shape[0] > 0` guard in the source tests the vector length, not the
mask population, so it has no element-wise effect). -/
def Bins.assignIdx (b : Bins) (v : List ℚ) : List ℤ :=
  b.lower_bounds.reverse.foldl
    (fun bins boundary =>
      (v.zip bins).map
        (fun p => if boundary ≤ (p.1 : WithBot ℚ) then p.2 else p.2 - 1))
    (v.map (fun _ => (b.n_bins : ℤ) - 1))

/-- Embedding of `_validate_n_bins` (binning.py lines 26-31): compute the
distinct values, raise when there are fewer of them than requested bins.
The counts returned alongside are used only by the entropy kernel. -/
def _validate_n_bins (x : List ℚ) (n : ℤ) : Except Err (List ℚ) :=
  let unique := uniqueSorted x
  if ((unique.length : ℤ)) < n then
    Except.error (Err.valueError "Fewer unique values than bins!")
  else Except.ok unique

/-- Embedding of `_uniform` (binning.py lines 40-49): validate cardinality,
chunk the sorted unique values, build the `_Bins`. -/
def _uniform (x : List ℚ) (n : ℤ) : Except Err Bins := do
  let unique ← _validate_n_bins x n
  pure (Bins.ofChunks (chunk unique n.toNat))

/-- Modelled from the spec: the Cython kernel `entropy_bin_bounds` (imported
from `._binning`) is not under src.  Per the spec its contract is only its
shape: it maps the ascending distinct values (with their counts) to an ordered
sequence of value-groups, one group per bin, of the same shape as the uniform
chunk output.  We realize that shape contract with the near-equal partition;
no claim depends on the choice of split points. -/
def entropy_bin_bounds (unique : List ℚ) (n : ℤ) : List (List ℚ) :=
  chunk unique n.toNat

/-- Embedding of `_entropy` (binning.py lines 34-37): validate cardinality,
delegate grouping to the kernel, build the `_Bins`. -/
def _entropy (x : List ℚ) (n : ℤ) : Except Err Bins := do
  let unique ← _validate_n_bins x n
  pure (Bins.ofChunks (entropy_bin_bounds unique n))

/-- Embedding of the `_STRATEGIES` registry (binning.py lines 52-53). -/
def _STRATEGIES (s : String) : Option (List ℚ → ℤ → Except Err Bins) :=
  if s = "entropy" then some _entropy
  else if s = "uniform" then some _uniform
  else none

/-- A table cell: the input data are numeric, the binned output cells are
integer bin levels or string labels. -/
inductive Cell where
  | num (q : ℚ)
  | int (z : ℤ)
  | str (s : String)
deriving DecidableEq, Repr

/-- Numeric view of a cell, as numpy comparison coerces ints to the numeric
comparison domain.  (String cells never reach `assign` in the covered paths.) -/
def Cell.toQ : Cell → ℚ
  | Cell.num q => q
  | Cell.int z => (z : ℚ)
  | Cell.str _ => 0

/-- A dataframe, modelled as its ordered columns: name paired with the column
values (row `i` of column `c` is entry `i` of `c`'s list). -/
abbrev Table := List (String × List Cell)

/-- First-match association lookup (dataframe column access / dict access). -/
def assocLookup {α : Type} (l : List (String × α)) (c : String) : Option α :=
  (l.find? (fun p => p.1 == c)).map Prod.snd

/-- Column read `X[c].values`; a missing column is a pandas `KeyError`. -/
def getCol (X : Table) (c : String) : Except Err (List Cell) :=
  match assocLookup X c with
  | some v => Except.ok v
  | none => Except.error (Err.keyError c)

/-- Column write `X[c] = vs`: replace in place when the column exists (its
position is preserved), otherwise append it on the right of the frame. -/
def setCol (X : Table) (c : String) (vs : List Cell) : Table :=
  if X.any (fun p => p.1 == c) then
    X.map (fun p => if p.1 == c then (c, vs) else p)
  else X ++ [(c, vs)]

/-- Modelled from the spec: `check_dataframe` from `skoot.utils.validation` is
not under src.  Per the spec (§6) it validates/copies the input and returns it
with the ordered configured column names; presence of required columns is the
business of `validate_test_set_columns`, and non-finite values cannot arise in
the rational model. -/
def check_dataframe (X : Table) (cols : List String) :
    Except Err (Table × List String) :=
  Except.ok (X, cols)

/-- Modelled from the spec: `validate_test_set_columns` from
`skoot.utils.validation` is not under src.  Per the spec (§6) it fails with a
missing-column error when any required column is absent. -/
def validate_test_set_columns (required : List String) (present : List String) :
    Except Err Unit :=
  let missing := required.filter (fun c => ¬ present.contains c)
  if missing.isEmpty then Except.ok ()
  else Except.error (Err.missingColumnError missing)

/-- The `n_bins` constructor argument: an int, a positional iterable, or a
dict keyed by column name. -/
inductive NBins where
  | int (n : ℤ)
  | list (ns : List ℤ)
  | dict (m : List (String × ℤ))
deriving DecidableEq, Repr

/-- Embedding of the `BinningTransformer` instance state: the constructor
parameters plus the fitted attributes `bins_` and `fit_cols_` (absent before
a successful fit, modelled as `none`). -/
structure BinningTransformer where
  cols : List String
  as_df : Bool
  n_bins : NBins
  strategy : String
  return_bin_label : Bool
  overwrite : Bool
  bins_ : Option (List (String × Bins))
  fit_cols_ : Option (List String)
deriving DecidableEq, Repr

/-- Embedding of `BinningTransformer.__init__` with its defaults. -/
def BinningTransformer.init (cols : List String) (n_bins : NBins)
    (strategy : String) (return_bin_label overwrite : Bool) :
    BinningTransformer :=
  ⟨cols, true, n_bins, strategy, return_bin_label, overwrite, none, none⟩

/-- Modelled from the spec: the sklearn `check_is_fitted(self, attr)`
collaborator; fails with the not-fitted error when the fitted attribute has
not been set. -/
def check_is_fitted (self : BinningTransformer) : Except Err Unit :=
  if self.bins_.isSome then Except.ok () else Except.error Err.notFittedError

/-- Normalization of the `n_bins` specification inside `fit` (binning.py
lines 270-300): an iterable must match the column count; a dict must have
exactly the configured columns as keys; a positional iterable is zipped with
the columns; a plain int is broadcast over all columns. -/
def normalizeNBins (n_bins : NBins) (cols : List String) :
    Except Err (List (String × ℤ)) :=
  match n_bins with
  | NBins.int n => Except.ok (cols.map (fun c => (c, n)))
  | NBins.list ns =>
    if ns.length ≠ cols.length then
      Except.error (Err.valueError "dim mismatch between cols and n_bin")
    else Except.ok (cols.zip ns)
  | NBins.dict m =>
    if m.length ≠ cols.length then
      Except.error (Err.valueError "dim mismatch between cols and n_bin")
    else if cols.all (fun c => (m.map Prod.fst).contains c) ∧
        (m.map Prod.fst).all (fun k => cols.contains k) then
      Except.ok m
    else
      Except.error (Err.valueError
        "When n_bins is provided as a dictionary its keys must match the provided cols.")

/-- The per-value check of `fit` (binning.py lines 303-305): every bin count
must be an integer greater than 1. -/
def checkBinValues (m : List (String × ℤ)) : Except Err Unit :=
  if m.all (fun p => 1 < p.2) then Except.ok ()
  else Except.error (Err.valueError "Each n_bin value must be an integer > 1")

/-- The fallible computation performed by `fit` (binning.py lines 265-318),
up to but not including the final attribute assignment: input validation,
`n_bins` normalization and value check, strategy resolution, and the
per-column bin computation. -/
def fitResult (self : BinningTransformer) (X : Table) :
    Except Err (List (String × Bins) × List String) := do
  let (Xv, cols) ← check_dataframe X self.cols
  let m ← normalizeNBins self.n_bins cols
  let _ ← checkBinValues m
  let binner ← (match _STRATEGIES self.strategy with
    | some f => Except.ok f
    | none => Except.error (Err.valueError
        ("strategy must be one of [entropy, uniform], but got " ++ self.strategy)))
  let bins ← m.mapM (fun p => do
    let v ← getCol Xv p.1
    let b ← binner (v.map Cell.toQ) p.2
    pure (p.1, b))
  pure (bins, cols)

/-- Embedding of `BinningTransformer.fit` (binning.py lines 252-323) with the
mutation made explicit: the result is the post-call instance state together
with the call status.  The source assigns `self.bins_` and `self.fit_cols_`
only after every fallible step has succeeded (lines 321-322), so on error the
instance is returned unchanged. -/
def BinningTransformer.fit (self : BinningTransformer) (X : Table) :
    BinningTransformer × Except Err Unit :=
  match fitResult self X with
  | Except.error e => (self, Except.error e)
  | Except.ok (bins, cols) =>
    ({ self with bins_ := some bins, fit_cols_ := some cols }, Except.ok ())

/-- Python list indexing `self.reprs[i]` with an ℤ index: negative indices
address from the end. -/
def pyGetStr (l : List String) (i : ℤ) : String :=
  if 0 ≤ i then l.getD i.toNat "" else l.getD (l.length - (.negSucc 0 * i).toNat) ""

/-- The binned output cells for one column: the `as_str` branch of
`_Bins.assign` maps the bin levels through the label array, otherwise the raw
integer levels are returned. -/
def binnedCells (b : Bins) (ret_label : Bool) (v : List Cell) : List Cell :=
  let idx := b.assignIdx (v.map Cell.toQ)
  if ret_label then idx.map (fun i => Cell.str (pyGetStr b.reprs i))
  else idx.map Cell.int

/-- The transform loop over the fit columns (binning.py lines 356-370): fetch
the column's `_Bins`, read the column values, assign, and write either over
the original column or to the derived `<col>_binned` column. -/
def applyBinning (bins : List (String × Bins)) (ret_label overwrite : Bool) :
    List String → Table → Except Err Table
  | [], X => Except.ok X
  | c :: rest, X => do
    let b ← (match assocLookup bins c with
      | some b => Except.ok b
      | none => Except.error (Err.keyError c))
    let v ← getCol X c
    let binned := binnedCells b ret_label v
    let Xn := if overwrite then setCol X c binned
      else setCol X (c ++ "_binned") binned
    applyBinning bins ret_label overwrite rest Xn

/-- Embedding of `BinningTransformer.transform` (binning.py lines 325-372):
require a prior fit, validate the input, require every fit column present,
then run the binning loop over the fit columns in their fit order.  The
final `as_df` choice only picks the output representation and is not part of
the table semantics modelled here. -/
def BinningTransformer.transform (self : BinningTransformer) (X : Table) :
    Except Err Table := do
  let _ ← check_is_fitted self
  let (Xv, _c) ← check_dataframe X self.cols
  let cols := self.fit_cols_.getD []
  let _ ← validate_test_set_columns cols (Xv.map Prod.fst)
  applyBinning (self.bins_.getD []) self.return_bin_label self.overwrite cols Xv

/-- Reference assignment function, stated from the spec's words for the
refinement claim: the largest index `i` (within the bounds array) such that
the value is at least `lower_bounds[i]`. -/
def refBinIdx (lbs : List (WithBot ℚ)) (x : ℚ) : ℕ :=
  Nat.findGreatest (fun i => lbs.getD i ⊥ ≤ (x : WithBot ℚ)) (lbs.length - 1)

/-
Helper lemmas.  The backward decrement scan is first reduced to a count of the
boundaries that lie strictly above the value, the vectorized scan is reduced
to its scalar core, and the shape of the bounds built by `Bins.ofChunks` is
computed in closed form.
-/

lemma foldl_dec_eq (x : ℚ) :
    ∀ (L : List (WithBot ℚ)) (s : ℤ),
      L.foldl (fun bi boundary => if boundary ≤ (x : WithBot ℚ) then bi else bi - 1) s
        = s - L.countP (fun l => !decide (l ≤ (x : WithBot ℚ)))
  | [], s => by simp
  | b :: L, s => by
    rw [List.foldl_cons, foldl_dec_eq x L, List.countP_cons]
    by_cases hb : b ≤ (x : WithBot ℚ)
    · simp [hb]
    · simp only [hb, if_false, decide_eq_true_eq]
      push_cast
      simp [hb]
      ring

lemma assignOne_eq_sub (b : Bins) (x : ℚ) :
    b.assignOne x = (b.n_bins : ℤ) - 1
      - b.lower_bounds.countP (fun l => !decide (l ≤ (x : WithBot ℚ))) := by
  unfold Bins.assignOne
  rw [foldl_dec_eq, List.countP_reverse]

lemma countP_not_le (x : ℚ) (L : List (WithBot ℚ)) :
    (L.countP (fun l => !decide (l ≤ (x : WithBot ℚ))) : ℤ)
      = (L.length : ℤ) - L.countP (fun l => decide (l ≤ (x : WithBot ℚ))) := by
  have h := List.length_eq_countP_add_countP
    (fun l : WithBot ℚ => decide (l ≤ (x : WithBot ℚ))) L
  have hco : L.countP (fun l => decide ¬ (decide (l ≤ (x : WithBot ℚ)) = true))
      = L.countP (fun l => !decide (l ≤ (x : WithBot ℚ))) := by
    congr 1
    funext l
    by_cases hl : l ≤ (x : WithBot ℚ) <;> simp [hl]
  rw [hco] at h
  omega

lemma assignOne_eq_countP (b : Bins) (x : ℚ)
    (hn : b.n_bins = b.lower_bounds.length) :
    b.assignOne x
      = (b.lower_bounds.countP (fun l => decide (l ≤ (x : WithBot ℚ))) : ℤ) - 1 := by
  rw [assignOne_eq_sub, hn, countP_not_le]
  ring

lemma zip_self_map (g : ℚ → ℤ) :
    ∀ v : List ℚ, v.zip (v.map g) = v.map (fun x => (x, g x))
  | [] => rfl
  | a :: v => by simp [zip_self_map g v]

lemma foldl_vec_eq (v : List ℚ) (L : List (WithBot ℚ)) :
    ∀ (g : ℚ → ℤ),
      L.foldl (fun bins boundary => (v.zip bins).map
          (fun p => if boundary ≤ (p.1 : WithBot ℚ) then p.2 else p.2 - 1))
        (v.map g)
      = v.map (fun (x : ℚ) => L.foldl
          (fun bi boundary => if boundary ≤ (x : WithBot ℚ) then bi else bi - 1) (g x)) := by
  induction L with
  | nil => intro g; simp
  | cons b L ih =>
    intro g
    rw [List.foldl_cons, zip_self_map, List.map_map]
    have step : ((fun p : ℚ × ℤ =>
        if b ≤ (p.1 : WithBot ℚ) then p.2 else p.2 - 1) ∘ fun x => (x, g x))
      = (fun (x : ℚ) => if b ≤ (x : WithBot ℚ) then g x else g x - 1) := rfl
    rw [step, ih]
    simp only [List.foldl_cons]

lemma assignIdx_eq_map (b : Bins) (v : List ℚ) :
    b.assignIdx v = v.map b.assignOne := by
  unfold Bins.assignIdx Bins.assignOne
  exact foldl_vec_eq v _ _

lemma getD_le_iff_lt_countP (x : ℚ) :
    ∀ (l : List (WithBot ℚ)), l.Sorted (· ≤ ·) → ∀ i, i < l.length →
      (l.getD i ⊥ ≤ (x : WithBot ℚ) ↔
        i < l.countP (fun a => decide (a ≤ (x : WithBot ℚ))))
  | [], _, i, hi => by simp at hi
  | a :: l, hs, i, hi => by
    have hs' : l.Sorted (· ≤ ·) := (List.pairwise_cons.mp hs).2
    have ha : ∀ b ∈ l, a ≤ b := (List.pairwise_cons.mp hs).1
    rw [List.countP_cons]
    by_cases hax : a ≤ (x : WithBot ℚ)
    · cases i with
      | zero => simp [hax]
      | succ j =>
        rw [List.getD_cons_succ]
        have hj : j < l.length := by simpa using hi
        have := getD_le_iff_lt_countP x l hs' j hj
        simpa [hax] using this
    · have hl0 : l.countP (fun a => decide (a ≤ (x : WithBot ℚ))) = 0 :=
        List.countP_eq_zero.mpr (fun b hb => by
          simp only [decide_eq_true_eq]
          intro hbx
          exact hax (le_trans (ha b hb) hbx))
      cases i with
      | zero => simpa [hax] using hl0
      | succ j =>
        rw [List.getD_cons_succ]
        have hj : j < l.length := by simpa using hi
        constructor
        · intro hle
          exfalso
          have hmem : l.getD j ⊥ ∈ l := by
            rw [List.getD_eq_getElem _ _ hj]
            exact List.getElem_mem hj
          exact hax (le_trans (ha _ hmem) hle)
        · intro h
          rw [hl0] at h
          simp [hax] at h
  termination_by l => l.length

lemma countP_pos_of_head_bot (x : ℚ) (l : List (WithBot ℚ))
    (hh : l.head? = some ⊥) :
    0 < l.countP (fun a => decide (a ≤ (x : WithBot ℚ))) := by
  have hbot : (⊥ : WithBot ℚ) ∈ l := List.mem_of_mem_head? (by rw [hh]; rfl)
  exact List.countP_pos_iff.mpr ⟨⊥, hbot, by simp⟩

lemma refBinIdx_eq_countP (x : ℚ) (l : List (WithBot ℚ))
    (hs : l.Sorted (· ≤ ·)) (hh : l.head? = some ⊥) :
    refBinIdx l x = l.countP (fun a => decide (a ≤ (x : WithBot ℚ))) - 1 := by
  set c := l.countP (fun a => decide (a ≤ (x : WithBot ℚ))) with hc
  have hc1 : 1 ≤ c := countP_pos_of_head_bot x l hh
  have hclen : c ≤ l.length := List.countP_le_length _
  have hlen1 : 1 ≤ l.length := by
    cases l with
    | nil => simp at hh
    | cons a t => simp
  have hchar := getD_le_iff_lt_countP x l hs
  have hP : l.getD (c - 1) ⊥ ≤ (x : WithBot ℚ) :=
    (hchar (c - 1) (by omega)).mpr (by omega)
  have hfgle : Nat.findGreatest
      (fun i => l.getD i ⊥ ≤ (x : WithBot ℚ)) (l.length - 1) ≤ l.length - 1 :=
    Nat.findGreatest_le _
  have hPfg : l.getD (Nat.findGreatest
      (fun i => l.getD i ⊥ ≤ (x : WithBot ℚ)) (l.length - 1)) ⊥ ≤ (x : WithBot ℚ) :=
    Nat.findGreatest_spec (P := fun i => l.getD i ⊥ ≤ (x : WithBot ℚ))
      (n := l.length - 1) (m := c - 1) (by omega) hP
  have hlt := (hchar (Nat.findGreatest
      (fun i => l.getD i ⊥ ≤ (x : WithBot ℚ)) (l.length - 1)) (by omega)).mp hPfg
  have hge : c - 1 ≤ Nat.findGreatest
      (fun i => l.getD i ⊥ ≤ (x : WithBot ℚ)) (l.length - 1) :=
    Nat.le_findGreatest (by omega) hP
  unfold refBinIdx
  omega

lemma enumFrom_map_of_pos {β : Type} (f : ℕ × (List ℚ × List ℚ) → β)
    (g : List ℚ × List ℚ → β)
    (hfg : ∀ i p, i ≠ 0 → f (i, p) = g p) :
    ∀ (l : List (List ℚ × List ℚ)) (n : ℕ), n ≠ 0 →
      (List.enumFrom n l).map f = l.map g := by
  intro l
  induction l with
  | nil => intro n _; rfl
  | cons p l ih =>
    intro n hn
    rw [List.enumFrom_cons, List.map_cons, List.map_cons, hfg n p hn,
      ih (n + 1) (by omega)]

lemma ofChunks_n_bins (chunks : List (List ℚ)) :
    (Bins.ofChunks chunks).n_bins = chunks.length := rfl

lemma ofChunks_lower_bounds_len (chunks : List (List ℚ)) (hne : chunks ≠ []) :
    (Bins.ofChunks chunks).lower_bounds.length = chunks.length := by
  obtain ⟨a, t, rfl⟩ := List.exists_cons_of_ne_nil hne
  unfold Bins.ofChunks
  simp [List.enum_length, List.length_zip, List.length_dropLast]

lemma ofChunks_upper_bounds_len (chunks : List (List ℚ)) (hne : chunks ≠ []) :
    (Bins.ofChunks chunks).upper_bounds.length = chunks.length := by
  obtain ⟨a, t, rfl⟩ := List.exists_cons_of_ne_nil hne
  unfold Bins.ofChunks
  simp [List.length_zip, List.length_dropLast]

lemma ofChunks_reprs_len (chunks : List (List ℚ)) (hne : chunks ≠ []) :
    (Bins.ofChunks chunks).reprs.length = chunks.length := by
  obtain ⟨a, t, rfl⟩ := List.exists_cons_of_ne_nil hne
  unfold Bins.ofChunks
  simp [List.enum_length, List.length_zip, List.length_dropLast]

lemma ofChunks_lower_bounds (a rh : List ℚ) (rt : List (List ℚ)) :
    (Bins.ofChunks (a :: rh :: rt)).lower_bounds
      = ⊥ :: (rh :: rt).map (fun c => ((c.headD 0 : ℚ) : WithBot ℚ)) := by
  unfold Bins.ofChunks
  dsimp only
  rw [List.dropLast_cons_of_ne_nil (List.cons_ne_nil rh rt), List.tail_cons,
    List.zip_cons_cons, List.enum_cons, List.map_cons]
  rw [enumFrom_map_of_pos _
    (fun p => ((p.1.headD 0 : ℚ) : WithBot ℚ))
    (fun i p hi => by simp [hi]) _ 1 (by omega)]
  have hfst : ((rh :: rt).dropLast.zip rt).map Prod.fst = (rh :: rt).dropLast :=
    List.map_fst_zip _ _ (by simp [List.length_dropLast])
  have hmm : ((rh :: rt).dropLast.zip rt).map
      (fun p : List ℚ × List ℚ => ((p.1.headD 0 : ℚ) : WithBot ℚ))
      = (rh :: rt).dropLast.map (fun c => ((c.headD 0 : ℚ) : WithBot ℚ)) := by
    rw [show (fun p : List ℚ × List ℚ => ((p.1.headD 0 : ℚ) : WithBot ℚ))
        = (fun c : List ℚ => ((c.headD 0 : ℚ) : WithBot ℚ)) ∘ Prod.fst from rfl,
      ← List.map_map, hfst]
  rw [hmm]
  have hlast : (rh :: rt).map (fun c => ((c.headD 0 : ℚ) : WithBot ℚ))
      = (rh :: rt).dropLast.map (fun c => ((c.headD 0 : ℚ) : WithBot ℚ))
        ++ [(((rt.getLastD rh).headD 0 : ℚ) : WithBot ℚ)] := by
    conv_lhs => rw [← List.dropLast_append_getLast (List.cons_ne_nil rh rt)]
    rw [List.map_append, List.getLast_eq_getLastD]
    simp
  rw [List.cons_append, hlast, List.getLastD_cons, List.getLastD_cons]
  rfl

lemma ofChunks_upper_bounds (a rh : List ℚ) (rt : List (List ℚ)) :
    (Bins.ofChunks (a :: rh :: rt)).upper_bounds
      = (rh :: rt).map (fun c => ((c.headD 0 : ℚ) : WithTop ℚ)) ++ [⊤] := by
  unfold Bins.ofChunks
  dsimp only
  rw [List.dropLast_cons_of_ne_nil (List.cons_ne_nil rh rt), List.tail_cons]
  congr 1
  rw [show (fun p : List ℚ × List ℚ => ((p.2.headD 0 : ℚ) : WithTop ℚ))
      = (fun c : List ℚ => ((c.headD 0 : ℚ) : WithTop ℚ)) ∘ Prod.snd from rfl,
    ← List.map_map]
  rw [List.map_snd_zip _ _ (by simp [List.length_dropLast])]

lemma ofChunks_lower_head (chunks : List (List ℚ)) (h2 : 2 ≤ chunks.length) :
    (Bins.ofChunks chunks).lower_bounds.head? = some ⊥ := by
  match chunks, h2 with
  | a :: rh :: rt, _ =>
    rw [ofChunks_lower_bounds]
    rfl

/-- C1: for every `_Bins` object (built by `_Bins.__init__` from a non-empty
chunk list) whose `lower_bounds` are non-decreasing and start at `-inf`,
`assign(v, as_str=False)` returns, for each element, the largest index `i`
such that the element is `>= lower_bounds[i]`: the backward decrement scan
computes exactly this reference function. -/
theorem assign_computes_largest_lb_index (chunks : List (List ℚ))
    (v : List ℚ) (hne : chunks ≠ [])
    (hs : (Bins.ofChunks chunks).lower_bounds.Sorted (· ≤ ·))
    (hh : (Bins.ofChunks chunks).lower_bounds.head? = some ⊥) :
    (Bins.ofChunks chunks).assignIdx v
      = v.map (fun x =>
          ((refBinIdx (Bins.ofChunks chunks).lower_bounds x : ℕ) : ℤ)) := by
  rw [assignIdx_eq_map]
  apply List.map_congr_left
  intro x _
  have hn : (Bins.ofChunks chunks).n_bins
      = (Bins.ofChunks chunks).lower_bounds.length := by
    rw [ofChunks_n_bins, ofChunks_lower_bounds_len chunks hne]
  rw [assignOne_eq_countP _ _ hn, refBinIdx_eq_countP x _ hs hh]
  have hc1 : 1 ≤ (Bins.ofChunks chunks).lower_bounds.countP
      (fun a => decide (a ≤ (x : WithBot ℚ))) := countP_pos_of_head_bot x _ hh
  omega

theorem assign_computes_largest_lb_index_witness :
    (Bins.ofChunks [[0,1,2],[3,4,5],[6,7],[8,9]]).assignIdx [5, 100]
      = [5, 100].map (fun x =>
          ((refBinIdx (Bins.ofChunks [[0,1,2],[3,4,5],[6,7],[8,9]]).lower_bounds x : ℕ) : ℤ)) :=
  assign_computes_largest_lb_index [[0,1,2],[3,4,5],[6,7],[8,9]] [5, 100]
    (by decide) (by decide) (by decide)

/-- C2: for every fitted `_Bins` object (a fit always builds at least two
chunks, since every bin count is validated to be greater than 1) and every
numeric input vector, every bin index returned by `assign` lies in
`[0, n_bins - 1]`; in the embedding `assign` is a total function, so no
exception is possible and out-of-range values are clamped into the extreme
bins. -/
theorem assign_indices_in_range (chunks : List (List ℚ)) (v : List ℚ)
    (h2 : 2 ≤ chunks.length) :
    ∀ z ∈ (Bins.ofChunks chunks).assignIdx v,
      0 ≤ z ∧ z ≤ ((Bins.ofChunks chunks).n_bins : ℤ) - 1 := by
  intro z hz
  rw [assignIdx_eq_map] at hz
  obtain ⟨x, _, rfl⟩ := List.mem_map.mp hz
  have hne : chunks ≠ [] := by
    intro h
    rw [h] at h2
    simp at h2
  have hn : (Bins.ofChunks chunks).n_bins
      = (Bins.ofChunks chunks).lower_bounds.length := by
    rw [ofChunks_n_bins, ofChunks_lower_bounds_len chunks hne]
  rw [assignOne_eq_countP _ _ hn]
  have hc1 : 1 ≤ (Bins.ofChunks chunks).lower_bounds.countP
      (fun a => decide (a ≤ (x : WithBot ℚ))) :=
    countP_pos_of_head_bot x _ (ofChunks_lower_head chunks h2)
  have hcle : (Bins.ofChunks chunks).lower_bounds.countP
      (fun a => decide (a ≤ (x : WithBot ℚ)))
      ≤ (Bins.ofChunks chunks).lower_bounds.length :=
    List.countP_le_length _
  omega

theorem assign_indices_in_range_witness :
    0 ≤ (0 : ℤ) ∧ (0 : ℤ) ≤ ((Bins.ofChunks [[1], [2]]).n_bins : ℤ) - 1 :=
  assign_indices_in_range [[1], [2]] [-50, 50] (by decide) 0 (by decide)

/-- C4: for every `_Bins` object and every pair of values `v1 <= v2`, the bin
index the scan assigns to `v1` is at most the one it assigns to `v2` (the
vector form maps the scalar scan over the input, by `assignIdx_eq_map`). -/
theorem assign_monotone (b : Bins) (v1 v2 : ℚ) (h : v1 ≤ v2) :
    b.assignOne v1 ≤ b.assignOne v2 := by
  rw [assignOne_eq_sub, assignOne_eq_sub]
  have hmono : b.lower_bounds.countP (fun l => !decide (l ≤ (v2 : WithBot ℚ)))
      ≤ b.lower_bounds.countP (fun l => !decide (l ≤ (v1 : WithBot ℚ))) := by
    apply List.countP_mono_left
    intro y _ hy
    simp only [Bool.not_eq_true', decide_eq_false_iff_not] at hy ⊢
    intro hle
    exact hy (le_trans hle (WithBot.coe_le_coe.mpr h))
  omega

theorem assign_monotone_witness :
    (Bins.ofChunks [[1], [2]]).assignOne 1 ≤ (Bins.ofChunks [[1], [2]]).assignOne 2 :=
  assign_monotone (Bins.ofChunks [[1], [2]]) 1 2 (by norm_num)

/-- C10: for every `_Bins` object built from chunks with strictly increasing
heads, a value exactly equal to the interior cut point `chunks[i][0]` (for
`i >= 1`, which is `lower_bounds[i]`) is assigned bin index `i`, not `i - 1`:
assignment intervals are closed at their lower bound. -/
theorem cut_point_assigned_to_upper_bin (chunks : List (List ℚ)) (i : ℕ)
    (hchain : chunks.Chain' (fun c d => c.headD 0 < d.headD 0))
    (h2 : 2 ≤ chunks.length) (hi1 : 1 ≤ i) (hin : i < chunks.length) :
    (Bins.ofChunks chunks).assignOne ((chunks.getD i []).headD 0) = (i : ℤ) := by
  match chunks, hchain, h2, hin with
  | a :: rh :: rt, hchain, _, hin =>
    obtain ⟨j, rfl⟩ : ∃ j, i = j + 1 := ⟨i - 1, by omega⟩
    have hlb := ofChunks_lower_bounds a rh rt
    have hchainT : (rh :: rt).Chain' (fun c d => c.headD 0 < d.headD 0) := by
      have h := hchain.tail
      simpa using h
    have hsorted : (Bins.ofChunks (a :: rh :: rt)).lower_bounds.Sorted (· ≤ ·) := by
      rw [hlb]
      refine List.pairwise_cons.mpr ⟨fun y _ => bot_le, ?_⟩
      refine List.chain'_iff_pairwise.mp ?_
      refine (List.chain'_map _).mpr ?_
      exact hchainT.imp (fun c d hcd => WithBot.coe_le_coe.mpr hcd.le)
    have hne : (a :: rh :: rt) ≠ [] := by simp
    have hn : (Bins.ofChunks (a :: rh :: rt)).n_bins
        = (Bins.ofChunks (a :: rh :: rt)).lower_bounds.length := by
      rw [ofChunks_n_bins, ofChunks_lower_bounds_len _ hne]
    have hlblen : (Bins.ofChunks (a :: rh :: rt)).lower_bounds.length
        = (rh :: rt).length + 1 := by
      rw [ofChunks_lower_bounds_len _ hne]
      simp
    have hjT : j < (rh :: rt).length := by
      simp only [List.length_cons] at hin
      simp only [List.length_cons]
      omega
    have hgetD : ∀ k, k < (rh :: rt).length →
        (Bins.ofChunks (a :: rh :: rt)).lower_bounds.getD (k + 1) ⊥
          = (((((rh :: rt).getD k []).headD 0) : ℚ) : WithBot ℚ) := by
      intro k hk
      rw [hlb, List.getD_cons_succ,
        List.getD_eq_getElem _ _ (by simpa using hk), List.getElem_map,
        List.getD_eq_getElem _ _ hk]
    have hchar := getD_le_iff_lt_countP (((a :: rh :: rt).getD (j + 1) []).headD 0)
      _ hsorted
    set x : ℚ := (((a :: rh :: rt).getD (j + 1) []).headD 0) with hxdef
    have hx : x = (((rh :: rt).getD j []).headD 0) := by
      rw [hxdef, List.getD_cons_succ]
    set c := (Bins.ofChunks (a :: rh :: rt)).lower_bounds.countP
      (fun l => decide (l ≤ (x : WithBot ℚ))) with hcdef
    have hlow : j + 1 < c := by
      refine (hchar (j + 1) (by omega)).mp ?_
      rw [hgetD j hjT, ← hx]
    have hupp : c ≤ j + 2 := by
      by_cases hlast : j + 2 < (Bins.ofChunks (a :: rh :: rt)).lower_bounds.length
      · have hj1T : j + 1 < (rh :: rt).length := by omega
        have hstrict : (((rh :: rt).getD j []).headD 0)
            < (((rh :: rt).getD (j + 1) []).headD 0) := by
          have hcg := List.chain'_iff_get.mp hchainT j (by
            simp only [List.length_cons] at hj1T ⊢
            omega)
          rwa [List.get_eq_getElem, List.get_eq_getElem,
            ← List.getD_eq_getElem _ ([] : List ℚ) hjT,
            ← List.getD_eq_getElem _ ([] : List ℚ) hj1T] at hcg
        have hnotP : ¬ ((Bins.ofChunks (a :: rh :: rt)).lower_bounds.getD (j + 2) ⊥
            ≤ (x : WithBot ℚ)) := by
          rw [show j + 2 = (j + 1) + 1 from rfl, hgetD (j + 1) hj1T, hx]
          exact not_le.mpr (WithBot.coe_lt_coe.mpr hstrict)
        have hc2 : ¬ (j + 2 < c) := fun hlt => hnotP ((hchar (j + 2) hlast).mpr hlt)
        omega
      · have hctot := List.countP_le_length
          (fun l => decide (l ≤ (x : WithBot ℚ)))
          (l := (Bins.ofChunks (a :: rh :: rt)).lower_bounds)
        omega
    rw [assignOne_eq_countP _ _ hn, ← hcdef]
    omega

theorem cut_point_assigned_to_upper_bin_witness :
    (Bins.ofChunks [[0,1,2],[3,4,5],[6,7],[8,9]]).assignOne
        (([[0,1,2],[3,4,5],[6,7],[8,9]].getD 1 []).headD 0) = ((1 : ℕ) : ℤ) :=
  cut_point_assigned_to_upper_bin [[0,1,2],[3,4,5],[6,7],[8,9]] 1
    (List.Chain'.cons (by decide) (List.Chain'.cons (by decide)
      (List.Chain'.cons (by decide) (List.chain'_singleton _))))
    (by decide) (by decide) (by decide)

/-- C3 counterexample: on the sample `[0..9]` with 4 uniform bins the label
of bin 1 is "(3.00, 6.00]" (its lower reference is chunk 1's own head, 3),
not "(0.00, 6.00]" as the claim states. -/
theorem uniform_bin1_label_counterexample :
    (Except.map (fun b => b.reprs.getD 1 "") (_uniform [0,1,2,3,4,5,6,7,8,9] 4)
      = Except.ok "(3.00, 6.00]") ∧ "(3.00, 6.00]" ≠ "(0.00, 6.00]" := by
  exact ⟨by rfl, by decide⟩

/-- C3 (amended): the uniform strategy with `n_bins = 4` on `[0,1,...,9]`
produces the chunks [0,1,2],[3,4,5],[6,7],[8,9] (earlier groups larger) and
the labels "(-Inf, 3.00]", "(3.00, 6.00]", "(6.00, 8.00]", "(8.00, Inf]":
bin 0's label is as claimed, bin 1's label is "(3.00, 6.00]" rather than the
claimed "(0.00, 6.00]", all labels use two-decimal formatting and the
`(-Inf, x]` / `(x, Inf]` convention holds on the extreme bins. -/
theorem uniform_ten_sample_labels :
    chunk (uniqueSorted [0,1,2,3,4,5,6,7,8,9]) 4
        = [[0,1,2],[3,4,5],[6,7],[8,9]] ∧
    Except.map (fun b => b.reprs) (_uniform [0,1,2,3,4,5,6,7,8,9] 4)
        = Except.ok ["(-Inf, 3.00]", "(3.00, 6.00]", "(6.00, 8.00]", "(8.00, Inf]"] := by
  exact ⟨by rfl, by rfl⟩

/-- C8 counterexample: `_Bins.__init__` applied to the single non-empty
(trivially ascending-sorted) chunk list `[[1]]` stores `lower_bounds = [1]`:
its first lower bound is the chunk head, not `-inf`, refuting the claimed
invariant for one-chunk lists. -/
theorem binset_invariants_counterexample :
    ¬ ((Bins.ofChunks [[1]]).lower_bounds.head? = some ⊥) := by decide

/-- C8 (amended): for every list of at least two chunks whose heads are
non-decreasing (as holds for non-empty, ascending-sorted value chunks), the
`_Bins` object satisfies all the claimed invariants: the three arrays have
length `n_bins` = number of chunks, lower and upper bounds are each
non-decreasing, `lower_bounds[0] = -inf`, and `upper_bounds[last] = +inf`.
With a single chunk everything holds except `lower_bounds[0] = -inf` (the
stored lower bound is then the chunk's head). -/
theorem binset_invariants (chunks : List (List ℚ))
    (h2 : 2 ≤ chunks.length)
    (hchain : chunks.Chain' (fun c d => c.headD 0 ≤ d.headD 0)) :
    (Bins.ofChunks chunks).lower_bounds.length = chunks.length ∧
    (Bins.ofChunks chunks).upper_bounds.length = chunks.length ∧
    (Bins.ofChunks chunks).reprs.length = chunks.length ∧
    (Bins.ofChunks chunks).n_bins = chunks.length ∧
    (Bins.ofChunks chunks).lower_bounds.Chain' (· ≤ ·) ∧
    (Bins.ofChunks chunks).upper_bounds.Chain' (· ≤ ·) ∧
    (Bins.ofChunks chunks).lower_bounds.head? = some ⊥ ∧
    (Bins.ofChunks chunks).upper_bounds.getLast? = some ⊤ := by
  match chunks, h2, hchain with
  | a :: rh :: rt, _, hchain =>
    have hne : (a :: rh :: rt) ≠ [] := by simp
    have hchainT : (rh :: rt).Chain' (fun c d => c.headD 0 ≤ d.headD 0) := by
      have h := hchain.tail
      simpa using h
    refine ⟨ofChunks_lower_bounds_len _ hne, ofChunks_upper_bounds_len _ hne,
      ofChunks_reprs_len _ hne, ofChunks_n_bins _, ?_, ?_,
      ofChunks_lower_head _ (by simp), ?_⟩
    · rw [ofChunks_lower_bounds]
      refine List.chain'_cons'.mpr ⟨fun y _ => bot_le, ?_⟩
      exact (List.chain'_map _).mpr
        (hchainT.imp fun c d h => WithBot.coe_le_coe.mpr h)
    · rw [ofChunks_upper_bounds]
      refine List.chain'_append.mpr
        ⟨(List.chain'_map _).mpr
            (hchainT.imp fun c d h => WithTop.coe_le_coe.mpr h),
          List.chain'_singleton _, ?_⟩
      intro y _ z hz
      have hz' : (⊤ : WithTop ℚ) = z := by simpa using hz
      rw [← hz']
      exact le_top
    · rw [ofChunks_upper_bounds, List.getLast?_concat]

theorem binset_invariants_witness :
    (Bins.ofChunks [[1], [2]]).lower_bounds.length = 2 ∧
    (Bins.ofChunks [[1], [2]]).lower_bounds.head? = some ⊥ ∧
    (Bins.ofChunks [[1], [2]]).upper_bounds.getLast? = some ⊤ := by
  have h := binset_invariants [[1], [2]] (by decide)
    (List.Chain'.cons (by decide) (List.chain'_singleton _))
  exact ⟨h.1, h.2.2.2.2.2.2.1, h.2.2.2.2.2.2.2⟩

/-- Occurrence check of one character sequence inside another, used to state
whether an error message mentions a column name. -/
def charsContains (needle : List Char) : List Char → Bool
  | [] => decide (needle = [])
  | c :: rest => needle.isPrefixOf (c :: rest) || charsContains needle rest

/-- Whether the string `sub` occurs as a substring of `s`. -/
def strContains (s sub : String) : Bool :=
  charsContains sub.data s.data

/-- C6 counterexample: fitting the column named "col1" with more bins (3)
than its distinct values (2) fails with the ValueError carrying the fixed
message "Fewer unique values than bins!"; that message does not contain the
offending column's name, so the error does not name the offending column. -/
theorem insufficient_cardinality_unnamed_counterexample :
    ((BinningTransformer.init ["col1"] (NBins.int 3) "uniform" false true).fit
        [("col1", [Cell.num 1, Cell.num 2])]).2
      = Except.error (Err.valueError "Fewer unique values than bins!") ∧
    strContains "Fewer unique values than bins!" "col1" = false := by
  exact ⟨by rfl, by decide⟩

/-- C6 (amended): with fewer distinct values than requested bins both
strategies fail with the insufficient-cardinality ValueError (whose message
does not name the offending column) and never silently reduce the bin count;
with at least `n_bins` distinct values (equality included) the boundary
computation proceeds without this error. -/
theorem insufficient_cardinality_check (x : List ℚ) (n : ℤ) :
    ((((uniqueSorted x).length : ℤ) < n →
        _uniform x n
            = Except.error (Err.valueError "Fewer unique values than bins!") ∧
        _entropy x n
            = Except.error (Err.valueError "Fewer unique values than bins!")) ∧
      (n ≤ ((uniqueSorted x).length : ℤ) →
        _uniform x n = Except.ok (Bins.ofChunks (chunk (uniqueSorted x) n.toNat)) ∧
        _entropy x n
            = Except.ok (Bins.ofChunks (entropy_bin_bounds (uniqueSorted x) n)))) := by
  constructor
  · intro h
    have hv : _validate_n_bins x n
        = Except.error (Err.valueError "Fewer unique values than bins!") := by
      unfold _validate_n_bins
      rw [if_pos h]
    unfold _uniform _entropy
    rw [hv]
    exact ⟨rfl, rfl⟩
  · intro h
    have hv : _validate_n_bins x n = Except.ok (uniqueSorted x) := by
      unfold _validate_n_bins
      rw [if_neg (not_lt.mpr h)]
    unfold _uniform _entropy
    rw [hv]
    exact ⟨rfl, rfl⟩

theorem insufficient_cardinality_check_witness :
    _uniform [(1 : ℚ), 2] 3
        = Except.error (Err.valueError "Fewer unique values than bins!") ∧
    _uniform [(1 : ℚ), 2] 2
        = Except.ok (Bins.ofChunks (chunk (uniqueSorted [(1 : ℚ), 2]) (2 : ℤ).toNat)) :=
  ⟨((insufficient_cardinality_check [1, 2] 3).1 (by decide)).1,
    ((insufficient_cardinality_check [1, 2] 2).2 (by decide)).1⟩

/-- C5: fit is atomic with respect to the fitted state: when any step of the
fit computation fails, the engine state is unchanged (the source assigns
`bins_` and `fit_cols_` only at lines 321-322, after every fallible step has
succeeded); when it succeeds, both attributes are replaced by exactly the
newly computed state, regardless of what they held before. -/
theorem fit_atomic (self : BinningTransformer) (X : Table) :
    (∀ e, fitResult self X = Except.error e →
        (self.fit X).1 = self ∧ (self.fit X).2 = Except.error e) ∧
    (∀ bins cols, fitResult self X = Except.ok (bins, cols) →
        (self.fit X).1
            = { self with bins_ := some bins, fit_cols_ := some cols } ∧
        (self.fit X).2 = Except.ok ()) := by
  constructor
  · intro e he
    unfold BinningTransformer.fit
    rw [he]
    exact ⟨rfl, rfl⟩
  · intro bins cols h
    unfold BinningTransformer.fit
    rw [h]
    exact ⟨rfl, rfl⟩

theorem fit_atomic_witness :
    ((BinningTransformer.init ["a"] (NBins.int 2) "median" true true).fit
        [("a", [Cell.num 1, Cell.num 2])]).1
      = BinningTransformer.init ["a"] (NBins.int 2) "median" true true :=
  ((fit_atomic (BinningTransformer.init ["a"] (NBins.int 2) "median" true true)
      [("a", [Cell.num 1, Cell.num 2])]).1
    (Err.valueError "strategy must be one of [entropy, uniform], but got median")
    (by rfl)).1

/-- C7: `transform` on an engine with no successful fit fails with the
not-fitted error, and `transform` on a table lacking any fit column fails
with the missing-column error listing the absent fit columns; in both cases
only the error is returned, so no binning is applied. -/
theorem transform_requires_fit_and_columns (self : BinningTransformer)
    (X : Table) :
    (self.bins_ = none → self.transform X = Except.error Err.notFittedError) ∧
    (∀ bs cols, self.bins_ = some bs → self.fit_cols_ = some cols →
      cols.filter (fun c => ¬ (X.map Prod.fst).contains c) ≠ [] →
      self.transform X
        = Except.error (Err.missingColumnError
            (cols.filter (fun c => ¬ (X.map Prod.fst).contains c)))) := by
  constructor
  · intro h
    unfold BinningTransformer.transform check_is_fitted
    rw [h]
    rfl
  · intro bs cols hb hf hmiss
    have hie : (cols.filter (fun c => ¬ (X.map Prod.fst).contains c)).isEmpty
        = false := by
      cases hfe : cols.filter (fun c => ¬ (X.map Prod.fst).contains c) with
      | nil => exact absurd hfe hmiss
      | cons a t => rfl
    unfold BinningTransformer.transform check_is_fitted check_dataframe
      validate_test_set_columns
    rw [hb, hf]
    show (if (cols.filter (fun c => ¬ (X.map Prod.fst).contains c)).isEmpty = true
        then Except.ok ()
        else Except.error (Err.missingColumnError
          (cols.filter (fun c => ¬ (X.map Prod.fst).contains c)))).bind
        (fun _ => applyBinning bs self.return_bin_label self.overwrite cols X)
      = Except.error (Err.missingColumnError
          (cols.filter (fun c => ¬ (X.map Prod.fst).contains c)))
    rw [hie]
    rfl

theorem transform_requires_fit_and_columns_witness :
    (BinningTransformer.init ["a"] (NBins.int 2) "uniform" true true).transform
        [("a", [Cell.num 1])] = Except.error Err.notFittedError ∧
    (⟨["a"], true, NBins.int 2, "uniform", true, true,
        some [("a", Bins.ofChunks [[1], [2]])], some ["a"]⟩ :
      BinningTransformer).transform [("b", [Cell.num 1])]
      = Except.error (Err.missingColumnError ["a"]) := by
  constructor
  · exact (transform_requires_fit_and_columns
      (BinningTransformer.init ["a"] (NBins.int 2) "uniform" true true)
      [("a", [Cell.num 1])]).1 rfl
  · have heq : (["a"].filter
        (fun c => ¬ (([("b", [Cell.num 1])] : Table).map Prod.fst).contains c))
        = ["a"] := by decide
    have h := (transform_requires_fit_and_columns
      (⟨["a"], true, NBins.int 2, "uniform", true, true,
          some [("a", Bins.ofChunks [[1], [2]])], some ["a"]⟩ :
        BinningTransformer) [("b", [Cell.num 1])]).2
      [("a", Bins.ofChunks [[1], [2]])] ["a"] rfl rfl
      (by rw [heq]; exact List.cons_ne_nil _ _)
    rw [heq] at h
    exact h

lemma assocLookup_setCol_self (X : Table) (c : String) (vs : List Cell) :
    assocLookup (setCol X c vs) c = some vs := by
  unfold setCol
  by_cases h : X.any (fun p => p.1 == c) = true
  · rw [if_pos h]
    revert h
    induction X with
    | nil => intro h; simp at h
    | cons p t ih =>
      intro h
      rw [List.map_cons]
      by_cases hp : (p.1 == c) = true
      · unfold assocLookup
        rw [if_pos hp, List.find?_cons_of_pos _ (by simp)]
        rfl
      · unfold assocLookup
        rw [if_neg hp, List.find?_cons_of_neg _ (by simp [hp])]
        have ht : t.any (fun q => q.1 == c) = true := by
          rw [List.any_cons] at h
          cases hbe : (p.1 == c) with
          | false =>
            rw [hbe, Bool.false_or] at h
            exact h
          | true => exact absurd hbe hp
        exact ih ht
  · rw [if_neg h]
    induction X with
    | nil =>
      unfold assocLookup
      rw [List.nil_append, List.find?_cons_of_pos _ (by simp)]
      rfl
    | cons p t ih =>
      have hp : (p.1 == c) = false := by
        cases hbe : (p.1 == c) with
        | false => rfl
        | true =>
          exact absurd (by rw [List.any_cons, hbe, Bool.true_or]) h
      have ht : ¬ (t.any (fun q => q.1 == c) = true) := by
        intro hc
        exact h (by rw [List.any_cons, hc, Bool.or_true])
      unfold assocLookup
      rw [List.cons_append, List.find?_cons_of_neg _ (by simp [hp])]
      exact ih ht

lemma bool_eq_false {b : Bool} (h : ¬ b = true) : b = false := by
  cases b
  · rfl
  · exact absurd rfl h

lemma assocLookup_map_update_other (X : Table) (c d : String) (vs : List Cell)
    (hdc : d ≠ c) :
    assocLookup (X.map (fun p => if (p.1 == c) = true then (c, vs) else p)) d
      = assocLookup X d := by
  have hcd : (c == d) = false := beq_eq_false_iff_ne.mpr (fun he => hdc he.symm)
  induction X with
  | nil => rfl
  | cons p t ih =>
    by_cases hp : (p.1 == c) = true
    · have hpd : (p.1 == d) = false := by
        rw [eq_of_beq hp]
        exact hcd
      simp only [assocLookup, List.map_cons, List.find?_cons, hp, if_true, hpd,
        hcd] at ih ⊢
      exact ih
    · have hpb : (p.1 == c) = false := bool_eq_false hp
      by_cases hpd : (p.1 == d) = true
      · simp only [assocLookup, List.map_cons, List.find?_cons, hpb,
          Bool.false_eq_true, if_false, hpd]
      · have hpdf : (p.1 == d) = false := bool_eq_false hpd
        simp only [assocLookup, List.map_cons, List.find?_cons, hpb,
          Bool.false_eq_true, if_false, hpdf] at ih ⊢
        exact ih

lemma assocLookup_append_single_other (X : Table) (c d : String)
    (vs : List Cell) (hdc : d ≠ c) :
    assocLookup (X ++ [(c, vs)]) d = assocLookup X d := by
  have hcd : (c == d) = false := beq_eq_false_iff_ne.mpr (fun he => hdc he.symm)
  induction X with
  | nil =>
    simp [assocLookup, List.find?_cons, hcd]
  | cons p t ih =>
    by_cases hpd : (p.1 == d) = true
    · simp only [assocLookup, List.cons_append, List.find?_cons, hpd]
    · have hpdf : (p.1 == d) = false := bool_eq_false hpd
      simp only [assocLookup, List.cons_append, List.find?_cons, hpdf] at ih ⊢
      exact ih

lemma assocLookup_setCol_other (X : Table) (c d : String) (vs : List Cell)
    (hdc : d ≠ c) :
    assocLookup (setCol X c vs) d = assocLookup X d := by
  unfold setCol
  by_cases h : X.any (fun p => p.1 == c) = true
  · rw [if_pos h]
    exact assocLookup_map_update_other X c d vs hdc
  · rw [if_neg h]
    exact assocLookup_append_single_other X c d vs hdc

lemma setCol_mem (X : Table) (c : String) (vs : List Cell) :
    ∀ p ∈ setCol X c vs, p = (c, vs) ∨ p ∈ X := by
  intro p hp
  unfold setCol at hp
  by_cases h : X.any (fun q => q.1 == c) = true
  · rw [if_pos h] at hp
    rcases List.mem_map.mp hp with ⟨q, hq, rfl⟩
    by_cases hqc : (q.1 == c) = true
    · left
      rw [if_pos hqc]
    · right
      rw [if_neg hqc]
      exact hq
  · rw [if_neg h] at hp
    rcases List.mem_append.mp hp with hp | hp
    · right
      exact hp
    · left
      simpa using hp

lemma lookup_mem {α : Type} (X : List (String × α)) (c : String) (vs : α)
    (h : assocLookup X c = some vs) : ∃ p ∈ X, Prod.snd p = vs := by
  unfold assocLookup at h
  rcases Option.map_eq_some'.mp h with ⟨p, hfind, hsnd⟩
  exact ⟨p, List.mem_of_find?_eq_some hfind, hsnd⟩

lemma lookup_fst {α : Type} (X : List (String × α)) (c : String) (vs : α)
    (h : assocLookup X c = some vs) : c ∈ X.map Prod.fst := by
  unfold assocLookup at h
  rcases Option.map_eq_some'.mp h with ⟨p, hfind, _⟩
  have hpc : p.1 = c := by
    have hb := List.find?_some hfind
    exact eq_of_beq hb
  exact hpc ▸ List.mem_map_of_mem Prod.fst (List.mem_of_find?_eq_some hfind)

lemma binnedCells_length (b : Bins) (ret : Bool) (vs : List Cell) :
    (binnedCells b ret vs).length = vs.length := by
  unfold binnedCells
  cases ret <;> simp [assignIdx_eq_map]

lemma strAppend_right_cancel {a b t : String} (h : a ++ t = b ++ t) : a = b := by
  have hd : a.data ++ t.data = b.data ++ t.data := by
    have hc := congrArg String.data h
    simpa [String.data_append] using hc
  exact String.ext (List.append_left_injective t.data hd)

lemma applyBinning_ok (bs : List (String × Bins)) (ret : Bool)
    (cols : List String) (L : ℕ) :
    ∀ (l : List String) (X : Table),
      (∀ c ∈ l, c ∈ cols) →
      (∀ c ∈ cols, (c ++ "_binned") ∉ cols) →
      (∀ c ∈ l, ∃ b, assocLookup bs c = some b) →
      (∀ c ∈ l, ∃ vs, assocLookup X c = some vs) →
      (∀ p ∈ X, (Prod.snd p).length = L) →
      ∃ Y, applyBinning bs ret false l X = Except.ok Y ∧
        (∀ p ∈ Y, (Prod.snd p).length = L) ∧
        (∀ d : String, (∀ c ∈ l, d ≠ c ++ "_binned") →
          assocLookup Y d = assocLookup X d) ∧
        (∀ c ∈ l, ∀ b vs, assocLookup bs c = some b →
          assocLookup X c = some vs →
          assocLookup Y (c ++ "_binned") = some (binnedCells b ret vs)) := by
  intro l
  induction l with
  | nil =>
    intro X _ _ _ _ hlen
    exact ⟨X, rfl, hlen, fun d _ => rfl,
      fun c hc => absurd hc (List.not_mem_nil c)⟩
  | cons c rest ih =>
    intro X hsub hfresh hbs hcols hlen
    obtain ⟨b, hb⟩ := hbs c (List.mem_cons_self c rest)
    obtain ⟨vs, hvs⟩ := hcols c (List.mem_cons_self c rest)
    have hccols : c ∈ cols := hsub c (List.mem_cons_self c rest)
    have hcbneq : ∀ d, d ∈ cols → d ≠ c ++ "_binned" := by
      intro d hd he
      exact hfresh c hccols (he ▸ hd)
    have hvslen : vs.length = L := by
      obtain ⟨p, hpX, hpv⟩ := lookup_mem X c vs hvs
      rw [← hpv]
      exact hlen p hpX
    have hX'cols : ∀ d ∈ rest, ∃ ws,
        assocLookup (setCol X (c ++ "_binned") (binnedCells b ret vs)) d
          = some ws := by
      intro d hd
      rw [assocLookup_setCol_other X _ d _
        (hcbneq d (hsub d (List.mem_cons_of_mem c hd)))]
      exact hcols d (List.mem_cons_of_mem c hd)
    have hX'len : ∀ p ∈ setCol X (c ++ "_binned") (binnedCells b ret vs),
        (Prod.snd p).length = L := by
      intro p hp
      rcases setCol_mem X _ _ p hp with rfl | hp
      · rw [show (Prod.snd (c ++ "_binned", binnedCells b ret vs))
            = binnedCells b ret vs from rfl, binnedCells_length]
        exact hvslen
      · exact hlen p hp
    obtain ⟨Y, hY, hYlen, hYpres, hYbin⟩ :=
      ih (setCol X (c ++ "_binned") (binnedCells b ret vs))
        (fun d hd => hsub d (List.mem_cons_of_mem c hd)) hfresh
        (fun d hd => hbs d (List.mem_cons_of_mem c hd)) hX'cols hX'len
    refine ⟨Y, ?_, hYlen, ?_, ?_⟩
    · simp only [applyBinning, getCol, hb, hvs]
      exact hY
    · intro d hd
      rw [hYpres d (fun e he => hd e (List.mem_cons_of_mem c he)),
        assocLookup_setCol_other X _ d _ (hd c (List.mem_cons_self c rest))]
    · intro e he b' vs' hb' hvs'
      rcases List.mem_cons.mp he with rfl | he
      · rw [hb] at hb'
        injection hb' with hb'
        subst hb'
        rw [hvs] at hvs'
        injection hvs' with hvs'
        subst hvs'
        by_cases hcrest : e ∈ rest
        · refine hYbin e hcrest b vs hb ?_
          rw [assocLookup_setCol_other X _ e _ (hcbneq e hccols)]
          exact hvs
        · rw [hYpres (e ++ "_binned") ?later, assocLookup_setCol_self]
          case later =>
            intro d hd he
            exact hcrest (strAppend_right_cancel he ▸ hd)
      · refine hYbin e he b' vs' hb' ?_
        rw [assocLookup_setCol_other X _ e _
          (hcbneq e (hsub e (List.mem_cons_of_mem c he)))]
        exact hvs'

/-- C9 (amended): for every fitted engine whose fit columns have fresh
derived names (no fit column's name is another fit column's name suffixed
with "_binned") and a well-formed input table containing the fit columns,
transform with overwrite = False succeeds; every output column has the input
row count (rows are preserved in number and order: each binned column is an
order-preserving per-element map of the original), each fit column keeps its
original values, and for each fit column `c` the output contains a column
named `c ++ "_binned"` holding the binned output of `c`'s original values.
Without the freshness condition the claim fails (see the counterexample). -/
theorem transform_appends_binned_columns (self : BinningTransformer)
    (X : Table) (bs : List (String × Bins)) (cols : List String) (L : ℕ)
    (hb : self.bins_ = some bs) (hf : self.fit_cols_ = some cols)
    (hov : self.overwrite = false)
    (hfresh : ∀ c ∈ cols, (c ++ "_binned") ∉ cols)
    (hbs : ∀ c ∈ cols, ∃ b, assocLookup bs c = some b)
    (hcols : ∀ c ∈ cols, ∃ vs, assocLookup X c = some vs)
    (hlen : ∀ p ∈ X, (Prod.snd p).length = L) :
    ∃ Y, self.transform X = Except.ok Y ∧
      (∀ p ∈ Y, (Prod.snd p).length = L) ∧
      (∀ c ∈ cols, assocLookup Y c = assocLookup X c) ∧
      (∀ c ∈ cols, ∀ b vs, assocLookup bs c = some b →
        assocLookup X c = some vs →
        assocLookup Y (c ++ "_binned")
          = some (binnedCells b self.return_bin_label vs)) := by
  have hfil : cols.filter (fun c => ¬ (X.map Prod.fst).contains c) = [] := by
    rw [List.filter_eq_nil_iff]
    intro c hc
    obtain ⟨vs, hvs⟩ := hcols c hc
    have hmem := lookup_fst X c vs hvs
    simp [hmem]
  have htr : self.transform X
      = applyBinning bs self.return_bin_label self.overwrite cols X := by
    unfold BinningTransformer.transform check_is_fitted check_dataframe
      validate_test_set_columns
    rw [hb, hf]
    show (if (cols.filter (fun c => ¬ (X.map Prod.fst).contains c)).isEmpty = true
        then Except.ok ()
        else Except.error (Err.missingColumnError
          (cols.filter (fun c => ¬ (X.map Prod.fst).contains c)))).bind
        (fun _ => applyBinning bs self.return_bin_label self.overwrite cols X)
      = applyBinning bs self.return_bin_label self.overwrite cols X
    rw [hfil]
    rfl
  obtain ⟨Y, hY, h1, h2, h3⟩ := applyBinning_ok bs self.return_bin_label cols L
    cols X (fun c hc => hc) hfresh hbs hcols hlen
  refine ⟨Y, ?_, h1, ?_, h3⟩
  · rw [htr, hov]
    exact hY
  · intro c hc
    refine h2 c ?_
    intro e he heq
    exact hfresh e he (heq ▸ hc)

theorem transform_appends_binned_columns_witness :
    ∃ Y, (⟨["a"], true, NBins.int 2, "uniform", false, false,
        some [("a", Bins.ofChunks [[1, 2], [3, 4]])], some ["a"]⟩ :
      BinningTransformer).transform
        [("a", [Cell.num 1, Cell.num 2, Cell.num 3, Cell.num 4])]
      = Except.ok Y ∧
      (∀ p ∈ Y, (Prod.snd p).length = 4) ∧
      (∀ c ∈ ["a"], assocLookup Y c
        = assocLookup [("a", [Cell.num 1, Cell.num 2, Cell.num 3, Cell.num 4])] c) ∧
      (∀ c ∈ ["a"], ∀ b vs,
        assocLookup [("a", Bins.ofChunks [[1, 2], [3, 4]])] c = some b →
        assocLookup [("a", [Cell.num 1, Cell.num 2, Cell.num 3, Cell.num 4])] c
          = some vs →
        assocLookup Y (c ++ "_binned") = some (binnedCells b false vs)) :=
  transform_appends_binned_columns
    (⟨["a"], true, NBins.int 2, "uniform", false, false,
        some [("a", Bins.ofChunks [[1, 2], [3, 4]])], some ["a"]⟩ :
      BinningTransformer)
    [("a", [Cell.num 1, Cell.num 2, Cell.num 3, Cell.num 4])]
    [("a", Bins.ofChunks [[1, 2], [3, 4]])] ["a"] 4 rfl rfl rfl
    (by decide)
    (by
      intro c hc
      rw [List.mem_singleton] at hc
      subst hc
      exact ⟨Bins.ofChunks [[1, 2], [3, 4]], rfl⟩)
    (by
      intro c hc
      rw [List.mem_singleton] at hc
      subst hc
      exact ⟨[Cell.num 1, Cell.num 2, Cell.num 3, Cell.num 4], rfl⟩)
    (by decide)

/-- C9 counterexample: an engine legitimately fitted (via `fit`) on columns
"a" and "a_binned" with overwrite = False writes the binned output of "a"
over the pre-existing fit column "a_binned" before that column is processed,
so the output does not keep column "a_binned"'s original values: the claim
fails without a freshness condition on the derived column names. -/
theorem transform_appends_binned_columns_counterexample :
    Except.map (fun Y => assocLookup Y "a_binned")
      (((BinningTransformer.init ["a", "a_binned"] (NBins.int 2) "uniform"
            false false).fit
          [("a", [Cell.num 1, Cell.num 2, Cell.num 3, Cell.num 4]),
            ("a_binned", [Cell.num 10, Cell.num 20, Cell.num 30, Cell.num 40])]).1.transform
        [("a", [Cell.num 1, Cell.num 2, Cell.num 3, Cell.num 4]),
          ("a_binned", [Cell.num 10, Cell.num 20, Cell.num 30, Cell.num 40])])
      = Except.ok (some [Cell.int 0, Cell.int 0, Cell.int 1, Cell.int 1]) ∧
    assocLookup
        [("a", [Cell.num 1, Cell.num 2, Cell.num 3, Cell.num 4]),
          ("a_binned", [Cell.num 10, Cell.num 20, Cell.num 30, Cell.num 40])]
        "a_binned"
      = some [Cell.num 10, Cell.num 20, Cell.num 30, Cell.num 40] ∧
    ([Cell.int 0, Cell.int 0, Cell.int 1, Cell.int 1] : List Cell)
      ≠ [Cell.num 10, Cell.num 20, Cell.num 30, Cell.num 40] := by
  exact ⟨by rfl, by rfl, by decide⟩
